import Mathlib

/-!
Verification of the file-protocol access gate
(`src/lib/vscode/src/vs/code/electron-main/protocol.ts`).

The gate decides, for requests on the native `file:` scheme and the
`vscode-file:` resource scheme, whether a local path may be served.
It keeps a store of authorized roots (a ternary search tree over URIs
in the source, case-insensitive off Linux), a fixed extension
allow-list, and dynamic grants tied to window lifetimes.

Paths are modelled as `String`s; the segment-level prefix matching and
case folding performed by the source's `TernarySearchTree.forUris` are
modelled at the level of path-segment lists.
-/

namespace Protocol

/-! ### Characters and case folding -/

/-- Modelled from the spec: roots are case-folded on case-insensitive
platforms. Case folding of one character (ASCII lowering, as in the
platform's `toLower`). -/
def foldChar (c : Char) : Char :=
  if 65 ≤ c.toNat ∧ c.toNat ≤ 90 then Char.ofNat (c.toNat + 32) else c

theorem foldChar_slash : foldChar '/' = '/' := by decide

theorem ofNat_shift_ne_slash (n : Nat) (h1 : 65 ≤ n) (h2 : n ≤ 90) :
    Char.ofNat (n + 32) ≠ '/' := by
  interval_cases n <;> decide

theorem ofNat_shift_not_upper (n : Nat) (h1 : 65 ≤ n) (h2 : n ≤ 90) :
    ¬ (65 ≤ (Char.ofNat (n + 32)).toNat ∧ (Char.ofNat (n + 32)).toNat ≤ 90) := by
  interval_cases n <;> decide

theorem foldChar_eq_slash {c : Char} (h : foldChar c = '/') : c = '/' := by
  unfold foldChar at h
  split at h
  · rename_i hc
    exact absurd h (ofNat_shift_ne_slash c.toNat hc.1 hc.2)
  · exact h

theorem foldChar_idem (c : Char) : foldChar (foldChar c) = foldChar c := by
  unfold foldChar
  split
  · rename_i hc
    simp [ofNat_shift_not_upper c.toNat hc.1 hc.2]
  · rename_i hc
    simp [hc]

/-- Lowercase every character of a string. -/
def lowerStr (s : String) : String := ⟨s.data.map foldChar⟩

/-! ### Path segmentation

Modelled from the spec: the root store matches "on path-segment
boundaries, never raw substring"; `segsAcc cur cs` splits the
characters `cs` at `/` boundaries, with `cur` the segment read so far,
dropping empty segments. -/

def segsAcc (cur : List Char) : List Char → List (List Char)
  | [] => if cur = [] then [] else [cur]
  | c :: cs =>
      if c = '/' then
        if cur = [] then segsAcc [] cs else cur :: segsAcc [] cs
      else segsAcc (cur ++ [c]) cs

/-- The `/`-separated segments of a path string (empty segments dropped). -/
def splitSegs (p : String) : List (List Char) := segsAcc [] p.data

theorem segsAcc_append_slash (bs : List Char) :
    ∀ (as : List Char) (cur : List Char),
      segsAcc cur (as ++ '/' :: bs) = segsAcc cur as ++ segsAcc [] bs := by
  intro as
  induction as with
  | nil =>
      intro cur
      by_cases h : cur = [] <;> simp [segsAcc, h]
  | cons a as ih =>
      intro cur
      by_cases ha : a = '/'
      · subst ha
        by_cases h : cur = [] <;> simp [segsAcc, h, ih]
      · simp [segsAcc, ha, ih]

theorem splitSegs_append_slash (a : String) (bs : List Char) :
    splitSegs ⟨a.data ++ '/' :: bs⟩ = splitSegs a ++ segsAcc [] bs := by
  simp [splitSegs, segsAcc_append_slash]

theorem segsAcc_map_fold (cs : List Char) :
    ∀ cur, segsAcc (cur.map foldChar) (cs.map foldChar) =
      (segsAcc cur cs).map (List.map foldChar) := by
  induction cs with
  | nil =>
      intro cur
      by_cases h : cur = [] <;> simp [segsAcc, h, List.map_eq_nil_iff]
  | cons c cs ih =>
      intro cur
      by_cases hc : c = '/'
      · subst hc
        rw [show ('/' :: cs).map foldChar = '/' :: cs.map foldChar by
          simp [foldChar_slash]]
        by_cases h : cur = []
        · simp [segsAcc, h]
          simpa using ih []
        · have h' : cur.map foldChar ≠ [] := by simp [List.map_eq_nil_iff, h]
          simp [segsAcc, h, h']
          simpa using ih []
      · have hc' : foldChar c ≠ '/' := fun h => hc (foldChar_eq_slash h)
        simp [segsAcc, hc, hc']
        have := ih (cur ++ [c])
        simpa using this

/-! ### The root store (source line 22: `validRoots`)

Modelled from the spec: `TernarySearchTree.forUris<boolean>(() => !isLinux)`
is a set of root paths whose lookup `findSubstr` answers whether the
queried path equals or is a path-segment descendant of a stored root,
folding case on case-insensitive platforms (`ci = !isLinux`), the same
folding applied at insert and at lookup. The store holds already
normalized root strings. -/

/-- Platform normalization of a path: case folded iff the platform's
filesystem is case-insensitive. -/
def normPath (ci : Bool) (p : String) : String := if ci then lowerStr p else p

/-- A path is well formed when it is absolute (leading `/`); an empty or
malformed path never matches any root. -/
def wfPath (p : String) : Bool :=
  match p.data with
  | c :: _ => c == '/'
  | [] => false

/-- Does stored root `r` cover path `p` (equal or path-segment descendant)? -/
def coversPath (r : String) (p : String) : Bool :=
  (splitSegs r).isPrefixOf (splitSegs p)

/-- `validRoots.findSubstr`: is `p` equal to or a descendant of some stored
root, at path-segment granularity, under platform normalization? -/
def findCoveringRoot (ci : Bool) (store : List String) (p : String) : Bool :=
  wfPath p && store.any (fun r => coversPath r (normPath ci p))

/-- `validRoots.set(root, true)` (constructor, lines 37-40): unconditional
insert, set semantics, key normalized per platform. -/
def setRoot (ci : Bool) (store : List String) (root : String) : List String :=
  let r := normPath ci root
  if store.contains r then store else r :: store

/-- Constructor lines 37-40: the four bootstrap roots (app root, extensions
path, global storage home, workspace storage home). -/
def initialStore (ci : Bool) (appRoot extensionsPath globalStorageHome
    workspaceStorageHome : String) : List String :=
  setRoot ci (setRoot ci (setRoot ci (setRoot ci [] appRoot) extensionsPath)
    globalStorageHome) workspaceStorageHome

/-! ### Extension allow-list (source line 23) -/

/-- Source line 23: `new Set(['.png', '.jpg', '.jpeg', '.gif', '.bmp'])`. -/
def validExtensions : List String := [".png", ".jpg", ".jpeg", ".gif", ".bmp"]

/-- The trailing segment of a path (the part after the last `/`). -/
def lastSeg (cs : List Char) : List Char :=
  cs.foldl (fun acc c => if c = '/' then [] else acc ++ [c]) []

/-- The dot-inclusive suffix of a segment starting at its last `.`
(empty when the segment has no dot). -/
def lastDotSuffix (cs : List Char) : List Char :=
  cs.foldl (fun acc c => if c = '.' then ['.'] else
    if acc = [] then [] else acc ++ [c]) []

/-- Modelled from the spec: `extname` (vs/base/common/resources, outside
src/) extracts the extension of the request path; the allow-list is
compared "using the lowercase, dot-inclusive extension extracted from the
request path". -/
def extnameLower (p : String) : String :=
  ⟨(lastDotSuffix (lastSeg p.data)).map foldChar⟩

/-! ### Requests, decisions, logging -/

/-- The value a handler passes to the protocol callback: a path to serve,
or `{ error: n }`. -/
inductive Decision
  | serve (path : String)
  | deny (error : Int)
deriving DecidableEq, Repr

/-- One structured denial log entry: scheme, resolved path, original URL
(source lines 107, 115, 144). -/
structure LogEntry where
  scheme : String
  path : String
  url : String
deriving DecidableEq, Repr

/-- Modelled from the spec: `URI.parse` of a request URL followed by
`fsPath` (vs/base/common/uri, outside src/) yields the request's
filesystem path; a URL that is not a plain `file://` URL fails closed
(produces a path that never matches). -/
def parseFileUrl (url : String) : String :=
  match url.data with
  | 'f' :: 'i' :: 'l' :: 'e' :: ':' :: '/' :: '/' :: rest => ⟨rest⟩
  | _ => ""

/-- `handleFileRequest` (source lines 86-119). `ci` is the platform's
case-insensitivity (`!isLinux`), `pbcl` is `isPreferringBrowserCodeLoad`.
The first component lists the callback invocations in order, the second
the error log entries emitted. -/
def handleFileRequest (ci : Bool) (pbcl : Bool) (store : List String)
    (url : String) : List Decision × List LogEntry :=
  let fileUri := parseFileUrl url
  if !pbcl then
    if findCoveringRoot ci store fileUri then
      ([Decision.serve fileUri], [])
    else if validExtensions.contains (extnameLower fileUri) then
      ([Decision.serve fileUri], [])
    else
      ([Decision.deny (-3)], [⟨"file", fileUri, url⟩])
  else
    ([Decision.deny (-3)], [⟨"file", fileUri, url⟩])

/-- `handleResourceRequest` (source lines 121-147). `asFileUri` is the
external `FileAccess.asFileUri` mapping from a `vscode-file` URL to the
underlying filesystem path. -/
def handleResourceRequest (ci : Bool) (store : List String)
    (asFileUri : String → String) (url : String) :
    List Decision × List LogEntry :=
  let fileUri := asFileUri url
  if findCoveringRoot ci store fileUri then
    ([Decision.serve fileUri], [])
  else if validExtensions.contains (extnameLower fileUri) then
    ([Decision.serve fileUri], [])
  else
    ([Decision.deny (-3)], [⟨"vscode-file", fileUri, url⟩])

/-- Modelled from the spec (section 4.4), for comparison with the source
handlers: the shared decision procedure on the resolved path — if a
stored root covers the path, Serve; else if the extension is allowed,
Serve; else one error log entry and Deny(ABORTED). -/
def decisionProcedure (ci : Bool) (store : List String) (scheme : String)
    (p : String) (url : String) : List Decision × List LogEntry :=
  if findCoveringRoot ci store p then
    ([Decision.serve p], [])
  else if validExtensions.contains (extnameLower p) then
    ([Decision.serve p], [])
  else
    ([Decision.deny (-3)], [⟨scheme, p, url⟩])

/-! ### Grants and window lifecycle (source lines 55-84) -/

/-- `addValidRoot` (source lines 76-84): if the (normalized) root is not
yet stored, store it and return a revocation handle deleting exactly that
root (`toDisposable(() => this.validRoots.delete(root))`); otherwise
return `Disposable.None`, modelled as `none`. -/
def addValidRoot (ci : Bool) (store : List String) (root : String) :
    List String × Option String :=
  let r := normPath ci root
  if store.contains r then (store, none)
  else (r :: store, some r)

/-- Disposing a revocation handle: `validRoots.delete(root)` for a real
handle, nothing for `Disposable.None`. Deletion removes the key from the
tree, i.e. every stored occurrence. -/
def revoke (store : List String) : Option String → List String
  | none => store
  | some r => store.filter (fun x => !(x == r))

/-- The window configuration the ready signal reports
(`window.config?.extensionDevelopmentPath`, `extensionTestsPath`). -/
structure WindowConfig where
  extensionDevelopmentPath : Option (List String)
  extensionTestsPath : Option String
deriving DecidableEq, Repr

/-- The consumer lifecycle signals consumed by `injectWindowsMainService`
(source lines 55-74): `onDidSignalReadyWindow`, `onDidClose`,
`onDidDestroy`. Window identity is a numeric id. -/
inductive WinEvent
  | ready (wid : Nat) (config : Option WindowConfig)
  | close (wid : Nat)
  | destroy (wid : Nat)
deriving DecidableEq, Repr

/-- Grant every path in order (the source loops over the development
paths, then the tests path), collecting the revocation handles in the
window's `DisposableStore`. -/
def grantPaths (ci : Bool) (store : List String) :
    List String → List String × List (Option String)
  | [] => (store, [])
  | p :: ps =>
      let sh := addValidRoot ci store p
      let rest := grantPaths ci sh.1 ps
      (rest.1, sh.2 :: rest.2)

/-- The gate's mutable state: the root store, and for each live window
that received grants, its id with its `DisposableStore` of handles. -/
structure GateState where
  store : List String
  wins : List (Nat × List (Option String))
deriving DecidableEq, Repr

/-- The paths a ready window is granted: each development path in order,
then the tests path (source lines 61-71). -/
def windowPaths (cfg : WindowConfig) : List String :=
  cfg.extensionDevelopmentPath.getD [] ++ cfg.extensionTestsPath.toList

/-- The ready signal (source lines 56-72): when the window's config
reports a development or tests path, grant them all and tie the handles
to the window. -/
def onReady (ci : Bool) (s : GateState) (wid : Nat)
    (config : Option WindowConfig) : GateState :=
  match config with
  | none => s
  | some cfg =>
      if cfg.extensionDevelopmentPath.isSome ||
          cfg.extensionTestsPath.isSome then
        let sh := grantPaths ci s.store (windowPaths cfg)
        ⟨sh.1, (wid, sh.2) :: s.wins⟩
      else s

/-- Close or destroy (source line 59): dispose the window's
`DisposableStore`, revoking each of its handles; the store guards itself,
so a second terminal signal for the same window finds nothing to do. -/
def disposeWins (wid : Nat) :
    List (Nat × List (Option String)) → List String →
    List String × List (Nat × List (Option String))
  | [], store => (store, [])
  | (w, hs) :: rest, store =>
      if w = wid then
        disposeWins wid rest (hs.foldl revoke store)
      else
        let r := disposeWins wid rest store
        (r.1, (w, hs) :: r.2)

def onCloseOrDestroy (s : GateState) (wid : Nat) : GateState :=
  let r := disposeWins wid s.wins s.store
  ⟨r.1, r.2⟩

/-- One lifecycle step of the gate. -/
def step (ci : Bool) (s : GateState) : WinEvent → GateState
  | WinEvent.ready w c => onReady ci s w c
  | WinEvent.close w => onCloseOrDestroy s w
  | WinEvent.destroy w => onCloseOrDestroy s w

/-- Run a trace of lifecycle events. -/
def run (ci : Bool) (s : GateState) (es : List WinEvent) : GateState :=
  es.foldl (step ci) s

/-- The roots owned by live handles (every `some` handle across the live
windows). -/
def handleRoots (wins : List (Nat × List (Option String))) : List String :=
  wins.flatMap (fun p => p.2.filterMap id)

/-- The reachable-state invariant tying the store to the bootstrap roots
`init` and the live handles: the store is exactly `init` plus the
handle-owned roots, each root is owned by at most one handle, and no
handle owns a bootstrap root. -/
def Inv (init : List String) (s : GateState) : Prop :=
  (∀ r ∈ s.store, r ∈ init ∨ r ∈ handleRoots s.wins) ∧
  (∀ r ∈ init, r ∈ s.store) ∧
  (∀ r ∈ handleRoots s.wins, r ∈ s.store) ∧
  (handleRoots s.wins).Nodup ∧
  (∀ r ∈ handleRoots s.wins, r ∉ init)

instance (init : List String) (s : GateState) : Decidable (Inv init s) := by
  unfold Inv
  infer_instance

/-! ### Lemmas about revocation and grants -/

theorem mem_revoke_some (store : List String) (r x : String) :
    x ∈ revoke store (some r) ↔ x ∈ store ∧ x ≠ r := by
  simp [revoke, List.mem_filter]

theorem mem_foldl_revoke (hs : List (Option String)) :
    ∀ (store : List String) (x : String),
      x ∈ hs.foldl revoke store ↔ x ∈ store ∧ x ∉ hs.filterMap id := by
  induction hs with
  | nil => simp
  | cons h hs ih =>
      intro store x
      cases h with
      | none => simp [List.foldl_cons, revoke, ih]
      | some r =>
          rw [List.foldl_cons]
          show x ∈ hs.foldl revoke (revoke store (some r)) ↔ _
          rw [ih, mem_revoke_some]
          simp only [List.filterMap_cons, id, List.mem_cons]
          tauto

theorem grantPaths_spec (ci : Bool) (ps : List String) :
    ∀ store : List String,
      (∀ x, x ∈ (grantPaths ci store ps).1 ↔
          x ∈ store ∨ x ∈ (grantPaths ci store ps).2.filterMap id) ∧
      ((grantPaths ci store ps).2.filterMap id).Nodup ∧
      (∀ x ∈ (grantPaths ci store ps).2.filterMap id, x ∉ store) := by
  induction ps with
  | nil => simp [grantPaths]
  | cons p ps ih =>
      intro store
      by_cases hc : store.contains (normPath ci p)
      · have hmem : normPath ci p ∈ store := by simpa using hc
        have e1 : grantPaths ci store (p :: ps) =
            ((grantPaths ci store ps).1, none :: (grantPaths ci store ps).2) := by
          simp [grantPaths, addValidRoot, hmem]
        rw [e1]
        simpa using ih store
      · have hmem : normPath ci p ∉ store := by simpa using hc
        have e1 : grantPaths ci store (p :: ps) =
            ((grantPaths ci (normPath ci p :: store) ps).1,
             some (normPath ci p) ::
               (grantPaths ci (normPath ci p :: store) ps).2) := by
          simp [grantPaths, addValidRoot, hmem]
        rw [e1]
        obtain ⟨iha, ihb, ihc⟩ := ih (normPath ci p :: store)
        refine ⟨?_, ?_, ?_⟩
        · intro x
          rw [iha x]
          simp only [List.filterMap_cons, id, List.mem_cons]
          tauto
        · simp only [List.filterMap_cons, id, List.nodup_cons]
          exact ⟨fun hx => (ihc _ hx) (List.mem_cons_self _ _), ihb⟩
        · intro x hx
          simp only [List.filterMap_cons, id, List.mem_cons] at hx
          rcases hx with rfl | hx
          · exact hmem
          · intro hxs
            exact (ihc _ hx) (List.mem_cons_of_mem _ hxs)

@[simp]
theorem handleRoots_nil : handleRoots [] = [] := rfl

@[simp]
theorem handleRoots_cons (w : Nat) (hs : List (Option String))
    (wins : List (Nat × List (Option String))) :
    handleRoots ((w, hs) :: wins) = hs.filterMap id ++ handleRoots wins := by
  simp [handleRoots]

theorem disposeWins_spec (wid : Nat)
    (wins : List (Nat × List (Option String))) :
    ∀ store : List String,
      (disposeWins wid wins store).2 =
        wins.filter (fun p => !(p.1 == wid)) ∧
      (∀ x, x ∈ (disposeWins wid wins store).1 ↔
        x ∈ store ∧
          x ∉ handleRoots (wins.filter (fun p => p.1 == wid))) := by
  induction wins with
  | nil => simp [disposeWins]
  | cons e wins ih =>
      obtain ⟨w, hs⟩ := e
      intro store
      by_cases hw : w = wid
      · subst hw
        have e1 : disposeWins w ((w, hs) :: wins) store =
            disposeWins w wins (hs.foldl revoke store) := by
          simp [disposeWins]
        rw [e1]
        obtain ⟨ih1, ih2⟩ := ih (hs.foldl revoke store)
        refine ⟨by simp [ih1], ?_⟩
        intro x
        rw [ih2 x, mem_foldl_revoke]
        simp only [List.filter_cons, beq_self_eq_true, if_pos,
          handleRoots_cons, List.mem_append]
        tauto
      · have hw' : (w == wid) = false := by simp [hw]
        have e1 : disposeWins wid ((w, hs) :: wins) store =
            ((disposeWins wid wins store).1,
             (w, hs) :: (disposeWins wid wins store).2) := by
          simp [disposeWins, hw]
        rw [e1]
        obtain ⟨ih1, ih2⟩ := ih store
        refine ⟨by simp [ih1, hw'], ?_⟩
        intro x
        rw [ih2 x]
        simp [List.filter_cons, hw']

/-! ### Invariant preservation -/

theorem inv_initial (init : List String) : Inv init ⟨init, []⟩ := by
  refine ⟨?_, ?_, ?_, ?_, ?_⟩ <;> simp [handleRoots]

theorem inv_onReady (ci : Bool) (init : List String) (s : GateState)
    (w : Nat) (c : Option WindowConfig) (h : Inv init s) :
    Inv init (onReady ci s w c) := by
  obtain ⟨h1, h2, h3, h4, h5⟩ := h
  cases c with
  | none => exact ⟨h1, h2, h3, h4, h5⟩
  | some cfg =>
      unfold onReady
      by_cases hcond : cfg.extensionDevelopmentPath.isSome ||
          cfg.extensionTestsPath.isSome
      · simp only [hcond, if_pos]
        obtain ⟨ga, gb, gc⟩ := grantPaths_spec ci (windowPaths cfg) s.store
        set G := grantPaths ci s.store (windowPaths cfg) with hG
        refine ⟨?_, ?_, ?_, ?_, ?_⟩
        · intro r hr
          rw [ga r] at hr
          rcases hr with hr | hr
          · rcases h1 r hr with hi | hh
            · exact Or.inl hi
            · exact Or.inr (by simp [List.mem_append, hh])
          · exact Or.inr (by simp [List.mem_append, hr])
        · intro r hr
          exact (ga r).mpr (Or.inl (h2 r hr))
        · intro r hr
          simp only [handleRoots_cons, List.mem_append] at hr
          rcases hr with hr | hr
          · exact (ga r).mpr (Or.inr hr)
          · exact (ga r).mpr (Or.inl (h3 r hr))
        · simp only [handleRoots_cons]
          rw [List.nodup_append]
          refine ⟨gb, h4, ?_⟩
          intro r hr hr'
          exact (gc r hr) (h3 r hr')
        · intro r hr
          simp only [handleRoots_cons, List.mem_append] at hr
          rcases hr with hr | hr
          · exact fun hi => (gc r hr) (h2 r hi)
          · exact h5 r hr
      · simp only [hcond]
        exact ⟨h1, h2, h3, h4, h5⟩

theorem inv_onCloseOrDestroy (init : List String) (s : GateState)
    (w : Nat) (h : Inv init s) : Inv init (onCloseOrDestroy s w) := by
  obtain ⟨h1, h2, h3, h4, h5⟩ := h
  obtain ⟨d1, d2⟩ := disposeWins_spec w s.wins s.store
  have hPerm : List.Perm
      (handleRoots (s.wins.filter (fun p => p.1 == w)) ++
        handleRoots (s.wins.filter (fun p => !(p.1 == w))))
      (handleRoots s.wins) := by
    have := (List.filter_append_perm (fun p => p.1 == w) s.wins).flatMap_right
      (fun p => p.2.filterMap id)
    simpa [handleRoots] using this
  have hmemsplit : ∀ x, x ∈ handleRoots s.wins ↔
      x ∈ handleRoots (s.wins.filter (fun p => p.1 == w)) ∨
      x ∈ handleRoots (s.wins.filter (fun p => !(p.1 == w))) := by
    intro x
    rw [← hPerm.mem_iff, List.mem_append]
  have hnd : (handleRoots (s.wins.filter (fun p => p.1 == w)) ++
      handleRoots (s.wins.filter (fun p => !(p.1 == w)))).Nodup :=
    hPerm.nodup_iff.mpr h4
  have hdisj := List.disjoint_of_nodup_append hnd
  rw [List.nodup_append] at hnd
  have hOC : onCloseOrDestroy s w =
      ⟨(disposeWins w s.wins s.store).1, (disposeWins w s.wins s.store).2⟩ :=
    rfl
  rw [hOC]
  refine ⟨?_, ?_, ?_, ?_, ?_⟩
  · intro r hr
    rw [d2 r] at hr
    obtain ⟨hrs, hrw⟩ := hr
    rcases h1 r hrs with hi | hh
    · exact Or.inl hi
    · rw [hmemsplit r] at hh
      rcases hh with hh | hh
      · exact absurd hh hrw
      · exact Or.inr (by simpa [d1] using hh)
  · intro r hr
    rw [d2 r]
    refine ⟨h2 r hr, fun hw => ?_⟩
    exact h5 r ((hmemsplit r).mpr (Or.inl hw)) hr
  · intro r hr
    rw [d2 r]
    rw [d1] at hr
    refine ⟨h3 r ((hmemsplit r).mpr (Or.inr hr)), fun hw => hdisj hw hr⟩
  · rw [d1]
    exact hnd.2.1
  · intro r hr
    rw [d1] at hr
    exact h5 r ((hmemsplit r).mpr (Or.inr hr))

theorem inv_step (ci : Bool) (init : List String) (s : GateState)
    (e : WinEvent) (h : Inv init s) : Inv init (step ci s e) := by
  cases e with
  | ready w c => exact inv_onReady ci init s w c h
  | close w => exact inv_onCloseOrDestroy init s w h
  | destroy w => exact inv_onCloseOrDestroy init s w h

theorem inv_run (ci : Bool) (init : List String) (es : List WinEvent) :
    ∀ s : GateState, Inv init s → Inv init (run ci s es) := by
  induction es with
  | nil => intro s h; exact h
  | cons e es ih =>
      intro s h
      exact ih (step ci s e) (inv_step ci init s e h)

/-! ### Helper lemmas for the claim theorems -/

theorem isPrefixOf_append_self (l t : List (List Char)) :
    l.isPrefixOf (l ++ t) = true := by
  rw [List.isPrefixOf_iff_prefix]
  exact List.prefix_append l t

theorem coversPath_self (q : String) : coversPath q q = true := by
  unfold coversPath
  rw [List.isPrefixOf_iff_prefix]

theorem findCoveringRoot_of_mem (ci : Bool) (store : List String)
    (p : String) (hwf : wfPath p = true)
    (hmem : normPath ci p ∈ store) : findCoveringRoot ci store p = true := by
  unfold findCoveringRoot
  rw [hwf, Bool.true_and, List.any_eq_true]
  exact ⟨normPath ci p, hmem, coversPath_self _⟩

theorem handle_root_mem (wins : List (Nat × List (Option String)))
    (w : Nat) (hs : List (Option String)) (r : String)
    (hD : (w, hs) ∈ wins) (hr : some r ∈ hs) : r ∈ handleRoots wins := by
  unfold handleRoots
  rw [List.mem_flatMap]
  exact ⟨(w, hs), hD, List.mem_filterMap.mpr ⟨some r, hr, rfl⟩⟩

theorem handleRoots_filter_perm (wins : List (Nat × List (Option String)))
    (w : Nat) :
    List.Perm
      (handleRoots (wins.filter (fun p => p.1 == w)) ++
        handleRoots (wins.filter (fun p => !(p.1 == w))))
      (handleRoots wins) := by
  have := (List.filter_append_perm (fun p => p.1 == w) wins).flatMap_right
    (fun p => p.2.filterMap id)
  simpa [handleRoots] using this

theorem close_keeps_other_roots (init : List String) (s : GateState)
    (w dWid : Nat) (hs : List (Option String)) (r : String)
    (hInv : Inv init s) (hD : (dWid, hs) ∈ s.wins) (hr : some r ∈ hs)
    (hne : dWid ≠ w) :
    r ∈ (onCloseOrDestroy s w).store ∧ (dWid, hs) ∈ (onCloseOrDestroy s w).wins := by
  obtain ⟨d1, d2⟩ := disposeWins_spec w s.wins s.store
  have hOC : onCloseOrDestroy s w =
      ⟨(disposeWins w s.wins s.store).1, (disposeWins w s.wins s.store).2⟩ :=
    rfl
  rw [hOC]
  have hDkeep : (dWid, hs) ∈ s.wins.filter (fun p => !(p.1 == w)) := by
    rw [List.mem_filter]
    exact ⟨hD, by simp [hne]⟩
  have hrOther : r ∈ handleRoots (s.wins.filter (fun p => !(p.1 == w))) :=
    handle_root_mem _ dWid hs r hDkeep hr
  have hnd := (handleRoots_filter_perm s.wins w).nodup_iff.mpr hInv.2.2.2.1
  have hdisj := List.disjoint_of_nodup_append hnd
  constructor
  · rw [d2 r]
    refine ⟨hInv.2.2.1 r (handle_root_mem _ dWid hs r hD hr), fun hw => ?_⟩
    exact hdisj hw hrOther
  · rw [d1]
    exact hDkeep

theorem close_removes_own_root (s : GateState) (w : Nat)
    (hs : List (Option String)) (r : String)
    (hD : (w, hs) ∈ s.wins) (hr : some r ∈ hs) :
    r ∉ (onCloseOrDestroy s w).store := by
  obtain ⟨d1, d2⟩ := disposeWins_spec w s.wins s.store
  have hOC : onCloseOrDestroy s w =
      ⟨(disposeWins w s.wins s.store).1, (disposeWins w s.wins s.store).2⟩ :=
    rfl
  rw [hOC]
  intro hmem
  rw [d2 r] at hmem
  refine hmem.2 ?_
  have hDown : (w, hs) ∈ s.wins.filter (fun p => p.1 == w) := by
    rw [List.mem_filter]
    exact ⟨hD, by simp⟩
  exact handle_root_mem _ w hs r hDown hr

theorem onReady_keeps (ci : Bool) (s : GateState) (w' : Nat)
    (c : Option WindowConfig) :
    (∀ x ∈ s.store, x ∈ (onReady ci s w' c).store) ∧
    (∀ pr ∈ s.wins, pr ∈ (onReady ci s w' c).wins) := by
  cases c with
  | none => exact ⟨fun x hx => hx, fun pr hpr => hpr⟩
  | some cfg =>
      unfold onReady
      by_cases hcond : cfg.extensionDevelopmentPath.isSome ||
          cfg.extensionTestsPath.isSome
      · simp only [hcond, if_pos]
        obtain ⟨ga, _, _⟩ := grantPaths_spec ci (windowPaths cfg) s.store
        exact ⟨fun x hx => (ga x).mpr (Or.inl hx),
          fun pr hpr => List.mem_cons_of_mem _ hpr⟩
      · simp only [hcond]
        exact ⟨fun x hx => hx, fun pr hpr => hpr⟩

/-- Which events are terminal signals for consumer `w`. -/
def isTerminalFor (w : Nat) : WinEvent → Bool
  | WinEvent.ready _ _ => false
  | WinEvent.close w' => w' == w
  | WinEvent.destroy w' => w' == w

theorem mem_segsAcc (c : Char) (hc : c ≠ '/') :
    ∀ (cs cur : List Char), c ∈ cur ++ cs →
      ∃ seg ∈ segsAcc cur cs, c ∈ seg := by
  intro cs
  induction cs with
  | nil =>
      intro cur h
      rw [List.append_nil] at h
      have hne : cur ≠ [] := by rintro rfl; simp at h
      exact ⟨cur, by simp [segsAcc, hne], h⟩
  | cons a cs ih =>
      intro cur h
      by_cases ha : a = '/'
      · subst ha
        rw [List.mem_append, List.mem_cons] at h
        rcases h with h | h | h
        · have hne : cur ≠ [] := by rintro rfl; simp at h
          exact ⟨cur, by simp [segsAcc, hne], h⟩
        · exact absurd h hc
        · obtain ⟨seg, hseg, hcseg⟩ := ih [] (by simpa using h)
          by_cases hne : cur = []
          · exact ⟨seg, by simpa [segsAcc, hne] using hseg, hcseg⟩
          · exact ⟨seg, by simp [segsAcc, hne, hseg], hcseg⟩
      · have h' : c ∈ (cur ++ [a]) ++ cs := by
          rw [List.append_assoc]
          simpa using h
        obtain ⟨seg, hseg, hcseg⟩ := ih (cur ++ [a]) h'
        exact ⟨seg, by simpa [segsAcc, ha] using hseg, hcseg⟩

theorem forall_fix_of_map_eq {α : Type} {f : α → α} :
    ∀ {l : List α}, l.map f = l → ∀ a ∈ l, f a = a := by
  intro l
  induction l with
  | nil => simp
  | cons a t ih =>
      intro h b hb
      rw [List.map_cons, List.cons.injEq] at h
      rcases List.mem_cons.mp hb with rfl | hb
      · exact h.1
      · exact ih h.2 b hb

theorem splitSegs_lower (p : String) :
    splitSegs (lowerStr p) = (splitSegs p).map (List.map foldChar) := by
  unfold splitSegs lowerStr
  have := segsAcc_map_fold p.data []
  simpa using this

/-! ### Claim theorems -/

/-- C1: with prefer-browser-code-load inactive, the native-file handler
follows exactly the shared decision procedure on the parsed path, and the
resource handler (the URL first translated by the external mapping)
follows the same procedure on the translated path: root check first, then
extension allow-list, else one error log entry and Deny(ABORTED). -/
theorem c1_handlers_follow_decision_procedure (ci : Bool)
    (store : List String) (url : String) (asFileUri : String → String) :
    handleFileRequest ci false store url =
      decisionProcedure ci store "file" (parseFileUrl url) url ∧
    handleResourceRequest ci store asFileUri url =
      decisionProcedure ci store "vscode-file" (asFileUri url) url := by
  exact ⟨rfl, rfl⟩

/-- C2: the store lookup answers true for any path that is a path-segment
descendant of (or equal to) a stored root; a sibling sharing only a raw
string prefix (root `/a/b`, path `/a/bc`) does not match; the empty path
and any non-absolute (malformed) path never match. -/
theorem c2_find_covering_root :
    (∀ (ci : Bool) (store : List String) (r p : String),
        r ∈ store → wfPath p = true →
        coversPath r (normPath ci p) = true →
        findCoveringRoot ci store p = true) ∧
    (∀ ci : Bool, findCoveringRoot ci [normPath ci "/a/b"] "/a/bc" = false) ∧
    (∀ (ci : Bool) (store : List String),
        findCoveringRoot ci store "" = false) ∧
    (∀ (ci : Bool) (store : List String) (p : String),
        wfPath p = false → findCoveringRoot ci store p = false) := by
  refine ⟨?_, ?_, ?_, ?_⟩
  · intro ci store r p hr hwf hcov
    unfold findCoveringRoot
    rw [hwf, Bool.true_and, List.any_eq_true]
    exact ⟨r, hr, hcov⟩
  · intro ci
    cases ci <;> decide
  · intro ci store
    have h : wfPath "" = false := rfl
    simp [findCoveringRoot, h]
  · intro ci store p hwf
    simp [findCoveringRoot, hwf]

theorem c2_find_covering_root_witness :
    findCoveringRoot false ["/a/b"] "/a/b/c" = true ∧
    findCoveringRoot false ["/a/b"] "no-leading-slash" = false :=
  ⟨c2_find_covering_root.1 false ["/a/b"] "/a/b" "/a/b/c"
      (by decide) (by decide) (by decide),
   c2_find_covering_root.2.2.2 false ["/a/b"] "no-leading-slash" (by decide)⟩

/-- C3: with prefer-browser-code-load active, the native-file handler
resolves Deny(ABORTED) (with one log entry) for every request, whatever
the store contains: neither the root store nor the allow-list affects the
result. -/
theorem c3_browser_code_load_denies_all (ci : Bool)
    (store store2 : List String) (url : String) :
    handleFileRequest ci true store url =
      ([Decision.deny (-3)], [⟨"file", parseFileUrl url, url⟩]) ∧
    handleFileRequest ci true store url =
      handleFileRequest ci true store2 url := by
  exact ⟨rfl, rfl⟩

/-- C6: the allow-list is exactly the five fixed extensions; any request
(on either scheme) whose resolved path is not covered by a root but whose
lowercased, dot-inclusive extension is in the list resolves to Serve;
an uppercase `.PNG` file extracts to `.png`. -/
theorem c6_extension_allowlist :
    validExtensions = [".png", ".jpg", ".jpeg", ".gif", ".bmp"] ∧
    (∀ (ci : Bool) (store : List String) (url : String),
        findCoveringRoot ci store (parseFileUrl url) = false →
        validExtensions.contains (extnameLower (parseFileUrl url)) = true →
        handleFileRequest ci false store url =
          ([Decision.serve (parseFileUrl url)], [])) ∧
    (∀ (ci : Bool) (store : List String) (asFileUri : String → String)
        (url : String),
        findCoveringRoot ci store (asFileUri url) = false →
        validExtensions.contains (extnameLower (asFileUri url)) = true →
        handleResourceRequest ci store asFileUri url =
          ([Decision.serve (asFileUri url)], [])) ∧
    extnameLower "/unauthorized/dir/image.PNG" = ".png" := by
  refine ⟨rfl, ?_, ?_, by decide⟩
  · intro ci store url h1 h2
    have h2m : extnameLower (parseFileUrl url) ∈ validExtensions := by
      simpa using h2
    simp [handleFileRequest, h1, h2m]
  · intro ci store asFileUri url h1 h2
    have h2m : extnameLower (asFileUri url) ∈ validExtensions := by
      simpa using h2
    simp [handleResourceRequest, h1, h2m]

theorem c6_extension_allowlist_witness :
    handleFileRequest false false [] "file:///unauthorized/dir/image.PNG" =
      ([Decision.serve "/unauthorized/dir/image.PNG"], []) := by
  have h := c6_extension_allowlist.2.1 false []
    "file:///unauthorized/dir/image.PNG" (by decide) (by decide)
  simpa using h

theorem decisionProcedure_shape (ci : Bool) (store : List String)
    (scheme p url : String) :
    (∃ q, (decisionProcedure ci store scheme p url).1 = [Decision.serve q]) ∨
    (decisionProcedure ci store scheme p url).1 = [Decision.deny (-3)] := by
  unfold decisionProcedure
  split_ifs <;> first
    | exact Or.inl ⟨_, rfl⟩
    | exact Or.inr rfl

/-- C7: each handler invokes the decision callback exactly once per
request (one element in the invocation list), for every URL including
malformed ones, and the only error value ever passed is ABORTED (-3). -/
theorem c7_single_resolution_aborted_only (ci pbcl : Bool)
    (store : List String) (url : String) (asFileUri : String → String) :
    ((∃ p, (handleFileRequest ci pbcl store url).1 = [Decision.serve p]) ∨
      (handleFileRequest ci pbcl store url).1 = [Decision.deny (-3)]) ∧
    ((∃ p, (handleResourceRequest ci store asFileUri url).1 =
        [Decision.serve p]) ∨
      (handleResourceRequest ci store asFileUri url).1 =
        [Decision.deny (-3)]) := by
  constructor
  · cases pbcl
    · exact decisionProcedure_shape ci store "file" (parseFileUrl url) url
    · exact Or.inr rfl
  · exact decisionProcedure_shape ci store "vscode-file" (asFileUri url) url

/-- C10: calling revoke a second time on the same handle leaves the store
exactly as after the first call, for a real handle (a second deletion of
the same root finds nothing) and for the no-op handle. -/
theorem c10_revoke_idempotent (store : List String) (h : Option String) :
    revoke (revoke store h) h = revoke store h := by
  cases h with
  | none => rfl
  | some r => simp [revoke, List.filter_filter]

/-- C4 counterexample: windows 0 and 1 are both granted `/dev/ext`
(window 0 first, so window 0's grant inserts the root and window 1's
grant is the no-op handle). Closing window 0 removes the root while
window 1 is still alive, so a lookup for window 1's granted path returns
false — the claim's "including when C and D were granted the same path"
fails on the code. -/
theorem c4_counterexample :
    ((1, [(none : Option String)]) ∈
      (run false ⟨[], []⟩
        [WinEvent.ready 0 (some ⟨some ["/dev/ext"], none⟩),
         WinEvent.ready 1 (some ⟨some ["/dev/ext"], none⟩),
         WinEvent.close 0]).wins) ∧
    findCoveringRoot false
      (run false ⟨[], []⟩
        [WinEvent.ready 0 (some ⟨some ["/dev/ext"], none⟩),
         WinEvent.ready 1 (some ⟨some ["/dev/ext"], none⟩),
         WinEvent.close 0]).store "/dev/ext" = false := by
  decide

/-- C4 amended: grants held by distinct consumers are independent
whenever the surviving consumer's grant actually inserted its root (its
handle is a real revocation handle, not the no-op returned when the path
was already authorized): closing or destroying consumer C leaves every
root inserted by still-alive consumer D in the store, and a lookup for
the granted path still returns true. When C and D were granted the same
path and C's grant inserted the root, closing C removes it (see the
counterexample). -/
theorem c4_amended (ci : Bool) (init : List String) (s : GateState)
    (cWid dWid : Nat) (hsD : List (Option String)) (p : String)
    (hInv : Inv init s) (hD : (dWid, hsD) ∈ s.wins)
    (hr : some (normPath ci p) ∈ hsD) (hne : dWid ≠ cWid)
    (hwf : wfPath p = true) :
    (dWid, hsD) ∈ (step ci s (WinEvent.close cWid)).wins ∧
    findCoveringRoot ci (step ci s (WinEvent.close cWid)).store p = true ∧
    (dWid, hsD) ∈ (step ci s (WinEvent.destroy cWid)).wins ∧
    findCoveringRoot ci (step ci s (WinEvent.destroy cWid)).store p = true := by
  obtain ⟨hst, hwin⟩ := close_keeps_other_roots init s cWid dWid hsD
    (normPath ci p) hInv hD hr hne
  exact ⟨hwin, findCoveringRoot_of_mem ci _ p hwf hst,
    hwin, findCoveringRoot_of_mem ci _ p hwf hst⟩

theorem c4_amended_witness :
    ((1, [some "/d"]) ∈
      (step false (run false ⟨["/app"], []⟩
        [WinEvent.ready 1 (some ⟨some ["/d"], none⟩)])
        (WinEvent.close 0)).wins) ∧
    findCoveringRoot false
      (step false (run false ⟨["/app"], []⟩
        [WinEvent.ready 1 (some ⟨some ["/d"], none⟩)])
        (WinEvent.close 0)).store "/d" = true := by
  have h := c4_amended false ["/app"]
    (run false ⟨["/app"], []⟩ [WinEvent.ready 1 (some ⟨some ["/d"], none⟩)])
    0 1 [some "/d"] "/d" (by decide) (by decide) (by decide) (by decide)
    (by decide)
  exact ⟨h.1, h.2.1⟩

/-- C5 counterexample: windows 0 and 1 each report development path `/p`
(window 0 first). Window 1's grant is created at its ready signal, but
its root `/p` is already absent from the store once window 0 closes,
although window 1 has received no close or destroy signal — so a grant's
root need not stay in the store for the whole ready-to-terminal
interval. -/
theorem c5_counterexample :
    ((1, [(none : Option String)]) ∈
      (run false ⟨[], []⟩
        [WinEvent.ready 0 (some ⟨some ["/p"], none⟩),
         WinEvent.ready 1 (some ⟨some ["/p"], none⟩),
         WinEvent.close 0]).wins) ∧
    "/p" ∉
      (run false ⟨[], []⟩
        [WinEvent.ready 0 (some ⟨some ["/p"], none⟩),
         WinEvent.ready 1 (some ⟨some ["/p"], none⟩),
         WinEvent.close 0]).store := by
  decide

/-- C5 amended: every grant that inserted its root (a real, non-no-op
handle) keeps that root in the store from the ready signal up to the
owning consumer's first close or destroy signal — no other event removes
it — and the consumer's close or destroy signal removes it. A no-op
grant (path already authorized at grant time) owns no root, and its path
may be removed earlier by the revocation of the grant that inserted it
(see the counterexample). -/
theorem c5_amended (ci : Bool) (init : List String) (s : GateState)
    (w : Nat) (hs : List (Option String)) (r : String) (e : WinEvent)
    (hInv : Inv init s) (hw : (w, hs) ∈ s.wins) (hr : some r ∈ hs)
    (hterm : isTerminalFor w e = false) :
    r ∈ s.store ∧
    (w, hs) ∈ (step ci s e).wins ∧
    r ∈ (step ci s e).store ∧
    r ∉ (step ci s (WinEvent.close w)).store ∧
    r ∉ (step ci s (WinEvent.destroy w)).store := by
  refine ⟨hInv.2.2.1 r (handle_root_mem s.wins w hs r hw hr), ?_, ?_,
    close_removes_own_root s w hs r hw hr,
    close_removes_own_root s w hs r hw hr⟩ <;>
  · cases e with
    | ready w' c =>
        first
          | exact (onReady_keeps ci s w' c).2 _ hw
          | exact (onReady_keeps ci s w' c).1 r
              (hInv.2.2.1 r (handle_root_mem s.wins w hs r hw hr))
    | close w' =>
        have hne : w ≠ w' := by
          simp [isTerminalFor] at hterm
          exact fun hcon => hterm hcon.symm
        first
          | exact (close_keeps_other_roots init s w' w hs r hInv hw hr hne).2
          | exact (close_keeps_other_roots init s w' w hs r hInv hw hr hne).1
    | destroy w' =>
        have hne : w ≠ w' := by
          simp [isTerminalFor] at hterm
          exact fun hcon => hterm hcon.symm
        first
          | exact (close_keeps_other_roots init s w' w hs r hInv hw hr hne).2
          | exact (close_keeps_other_roots init s w' w hs r hInv hw hr hne).1

theorem c5_amended_witness :
    "/t" ∈ (run false ⟨["/app"], []⟩
      [WinEvent.ready 2 (some ⟨none, some "/t"⟩)]).store ∧
    "/t" ∉ (step false (run false ⟨["/app"], []⟩
      [WinEvent.ready 2 (some ⟨none, some "/t"⟩)])
      (WinEvent.close 2)).store := by
  have h := c5_amended false ["/app"]
    (run false ⟨["/app"], []⟩ [WinEvent.ready 2 (some ⟨none, some "/t"⟩)])
    2 [some "/t"] "/t" (WinEvent.close 3) (by decide) (by decide)
    (by decide) (by decide)
  exact ⟨h.1, h.2.2.2.1⟩

/-- C9: granting an already-authorized path returns the no-op handle (and
revoking it changes nothing); revoking a handle removes at most the
single root that handle names and keeps every other entry; under the
lifecycle invariant no close/destroy removes a bootstrap root, nor any
root not owned by the closing window's own grants. -/
theorem c9_grant_revocation_frame :
    (∀ (ci : Bool) (store : List String) (r : String),
        normPath ci r ∈ store →
        addValidRoot ci store r = (store, none) ∧
          revoke store none = store) ∧
    (∀ (store : List String) (h : Option String) (x : String),
        x ∈ revoke store h → x ∈ store) ∧
    (∀ (store : List String) (r x : String),
        x ∈ store → x ≠ r → x ∈ revoke store (some r)) ∧
    (∀ (ci : Bool) (init : List String) (s : GateState) (e : WinEvent),
        Inv init s → ∀ r ∈ init, r ∈ (step ci s e).store) ∧
    (∀ (ci : Bool) (init : List String) (s : GateState) (w : Nat)
        (r : String), Inv init s → r ∈ s.store →
        r ∉ handleRoots (s.wins.filter (fun p => p.1 == w)) →
        r ∈ (step ci s (WinEvent.close w)).store ∧
        r ∈ (step ci s (WinEvent.destroy w)).store) := by
  refine ⟨?_, ?_, ?_, ?_, ?_⟩
  · intro ci store r h
    exact ⟨by simp [addValidRoot, h], rfl⟩
  · intro store h x hx
    cases h with
    | none => exact hx
    | some r => exact ((mem_revoke_some store r x).mp hx).1
  · intro store r x hx hne
    exact (mem_revoke_some store r x).mpr ⟨hx, hne⟩
  · intro ci init s e hI r hr
    exact (inv_step ci init s e hI).2.1 r hr
  · intro ci init s w r hI hr hnw
    obtain ⟨d1, d2⟩ := disposeWins_spec w s.wins s.store
    have key : r ∈ (disposeWins w s.wins s.store).1 :=
      (d2 r).mpr ⟨hr, hnw⟩
    exact ⟨key, key⟩

theorem c9_grant_revocation_frame_witness :
    addValidRoot false ["/a"] "/a" = (["/a"], none) ∧
    "/b" ∈ revoke ["/a", "/b"] (some "/a") :=
  ⟨(c9_grant_revocation_frame.1 false ["/a"] "/a" (by decide)).1,
   c9_grant_revocation_frame.2.2.1 ["/a", "/b"] "/a" "/b"
     (by decide) (by decide)⟩

/-! ### Case folding of the store (claim C8) -/

theorem map_fold_fold (l : List Char) :
    (l.map foldChar).map foldChar = l.map foldChar := by
  rw [List.map_map]
  exact List.map_congr_left (fun a _ => foldChar_idem a)

theorem wfPath_of_data {p : String} {t : List Char}
    (h : p.data = '/' :: t) : wfPath p = true := by
  unfold wfPath
  rw [h]
  rfl

theorem wfPath_data {p : String} (h : wfPath p = true) :
    ∃ t, p.data = '/' :: t := by
  unfold wfPath at h
  cases hd : p.data with
  | nil => rw [hd] at h; exact absurd h (by decide)
  | cons c t =>
      rw [hd] at h
      have hc : c = '/' := by simpa using h
      subst hc
      exact ⟨t, rfl⟩

/-- C8: with the same folding applied at insert and lookup, inserting
root `R` on a case-insensitive platform and looking up `lower(R)/x`
finds a covering root; on a case-sensitive platform the same lookup,
when the case actually differs, finds none. -/
theorem c8_case_folding (R : String) (hwf : wfPath R = true) :
    findCoveringRoot true (setRoot true [] R) (lowerStr R ++ "/x") = true ∧
    (lowerStr R ≠ R →
      findCoveringRoot false (setRoot false [] R) (lowerStr R ++ "/x") =
        false) := by
  obtain ⟨t, hdata⟩ := wfPath_data hwf
  have hpd : (lowerStr R ++ "/x").data = (lowerStr R).data ++ '/' :: ['x'] := by
    rw [String.data_append]
  have hld : (lowerStr R).data = '/' :: t.map foldChar := by
    show R.data.map foldChar = _
    rw [hdata, List.map_cons, foldChar_slash]
  have hwfq : wfPath (lowerStr R ++ "/x") = true := by
    apply wfPath_of_data
    rw [hpd, hld]
    rfl
  have hq : (lowerStr R ++ "/x") = ⟨(lowerStr R).data ++ '/' :: ['x']⟩ :=
    String.ext hpd
  have hsx : segsAcc [] ['x'] = [['x']] := by decide
  have hsplitq : splitSegs (lowerStr R ++ "/x") =
      splitSegs (lowerStr R) ++ [['x']] := by
    rw [hq, splitSegs_append_slash, hsx]
  constructor
  · have hstore1 : setRoot true [] R = [lowerStr R] := by
      simp [setRoot, normPath]
    have hnorm : normPath true (lowerStr R ++ "/x") = lowerStr R ++ "/x" := by
      show lowerStr (lowerStr R ++ "/x") = lowerStr R ++ "/x"
      apply String.ext
      show (lowerStr R ++ "/x").data.map foldChar = (lowerStr R ++ "/x").data
      rw [hpd, List.map_append]
      congr 1
      show (R.data.map foldChar).map foldChar = R.data.map foldChar
      exact map_fold_fold R.data
    unfold findCoveringRoot
    rw [hwfq, Bool.true_and, hstore1]
    simp only [List.any_cons, List.any_nil, Bool.or_false]
    unfold coversPath
    rw [hnorm, hsplitq]
    exact isPrefixOf_append_self _ _
  · intro hne
    have hstore2 : setRoot false [] R = [R] := by
      simp [setRoot, normPath]
    cases hfind : findCoveringRoot false (setRoot false [] R)
        (lowerStr R ++ "/x") with
    | false => rfl
    | true =>
        exfalso
        unfold findCoveringRoot at hfind
        rw [hstore2] at hfind
        simp only [List.any_cons, List.any_nil, Bool.or_false,
          Bool.and_eq_true] at hfind
        obtain ⟨hwfq2, hcov⟩ := hfind
        unfold coversPath at hcov
        have hnf : normPath false (lowerStr R ++ "/x") =
            lowerStr R ++ "/x" := by
          simp [normPath]
        rw [hnf, hsplitq, splitSegs_lower,
          List.isPrefixOf_iff_prefix] at hcov
        have htake := List.prefix_iff_eq_take.mp hcov
        have hlen : (splitSegs R).length =
            ((splitSegs R).map (List.map foldChar)).length := by
          rw [List.length_map]
        rw [hlen, List.take_left] at htake
        have hsegfix : ∀ seg ∈ splitSegs R, seg.map foldChar = seg :=
          forall_fix_of_map_eq htake.symm
        have hchar : ∀ c ∈ R.data, foldChar c = c := by
          intro c hc
          by_cases hcs : c = '/'
          · rw [hcs]
            exact foldChar_slash
          · obtain ⟨seg, hseg, hcin⟩ :=
              mem_segsAcc c hcs R.data [] (by simpa using hc)
            exact forall_fix_of_map_eq (hsegfix seg hseg) c hcin
        apply hne
        apply String.ext
        show R.data.map foldChar = R.data
        calc R.data.map foldChar = R.data.map (fun a => a) :=
              List.map_congr_left hchar
          _ = R.data := by simp

theorem c8_case_folding_witness :
    wfPath "/Ab" = true ∧
    findCoveringRoot true (setRoot true [] "/Ab")
      (lowerStr "/Ab" ++ "/x") = true ∧
    findCoveringRoot false (setRoot false [] "/Ab")
      (lowerStr "/Ab" ++ "/x") = false :=
  ⟨by decide, (c8_case_folding "/Ab" (by decide)).1,
   (c8_case_folding "/Ab" (by decide)).2 (by decide)⟩
